import Mathlib

/-!
# Counting set bits: a verification development of `count_bits.c`

The C program counts the 1-bits of a `uint32_t` in three ways (shift-and-test,
clear-lowest-bit, byte lookup table), checks the three against a fixed table of
six cases and then times them.

Embedding conventions.
* A `uint32_t` is a `Nat` below `2 ^ 32`; every C operation that can wrap is
  written with an explicit `% 2 ^ 32`.
* A C loop is a recursive function on the loop state, total by a termination
  argument taken from the loop body; the two counting loops also carry the
  number of passes made, and the timing loop the calls made, as records of the
  embedding.
* A read of a C array is a checked read (`xs[i]?`), so a function that reads a
  table returns an `Option`.
* What a function writes or calls is recorded as a list of events.
-/

namespace CountBits

/-! ## Machine integers -/

/-- Conversion of a C `int` value to `uint32_t` (reduction modulo `2 ^ 32`). -/
def toU32 (z : Int) : Nat := (z % (2 ^ 32 : Int)).toNat

/-- Conversion of a C `int` value to `uint8_t` (reduction modulo `2 ^ 8`). -/
def toU8 (z : Int) : Nat := (z % (2 ^ 8 : Int)).toNat

/-! ## Constants and the test table (lines 6-13) -/

/-- The constant `#define ITERATIONS 10000000u`. -/
def ITERATIONS : Nat := 10000000

/-- The constant `#define N_CASES 6`. -/
def N_CASES : Nat := 6

/-- The array `static const uint32_t test_input[N_CASES] = {0, 1, 2, 3, ~0, (~0)-1};`
whose initialisers are `int` expressions converted to `uint32_t`. -/
def test_input : List Nat :=
  [toU32 0, toU32 1, toU32 2, toU32 3, toU32 (~~~ (0 : Int)), toU32 ((~~~ (0 : Int)) - 1)]

/-- The array `static const uint32_t test_expected[N_CASES] = {0, 1, 1, 2, 32, 31};`. -/
def test_expected : List Nat :=
  [toU32 0, toU32 1, toU32 1, toU32 2, toU32 32, toU32 31]

/-! ## `count_bits_naive` (lines 25-33) -/

/-- The loop update `n >>= 1` on a `uint32_t`: the logical right shift by one. -/
def shift_right_one (n : Nat) : Nat :=
  n >>> 1

/-- The loop `for (count = 0; n; n >>= 1) { count += n & 0x1; }` from the state
`(n, count)`, with `passes` counting the passes through the body made so far
(a counter of the embedding, not a variable of the program): the value of
`count` when the loop exits, and the number of passes made by then. -/
def count_bits_naive_loop (n count passes : Nat) : Nat × Nat :=
  if h : n = 0 then (count, passes)
  else count_bits_naive_loop (shift_right_one n) ((count + (n &&& 0x1)) % 2 ^ 32) (passes + 1)
termination_by n
decreasing_by
  unfold shift_right_one
  rw [Nat.shiftRight_eq_div_pow]
  exact Nat.div_lt_self (Nat.pos_of_ne_zero h) (by decide)

/-- The function `uint32_t count_bits_naive(uint32_t n)`: the value of `count`
at the exit of its loop, entered with `count = 0`. -/
def count_bits_naive (n : Nat) : Nat :=
  (count_bits_naive_loop n 0 0).1

/-- Number of passes through the body that the loop of `count_bits_naive`
makes on input `n`. -/
def count_bits_naive_iterations (n : Nat) : Nat :=
  (count_bits_naive_loop n 0 0).2

/-! ## `count_bits_fast` (lines 39-47) -/

/-- The loop body `n &= n - 1;` on a `uint32_t`: the subtraction is modulo
`2 ^ 32`. -/
def clear_lowest (n : Nat) : Nat :=
  n &&& ((n + 2 ^ 32 - 1) % 2 ^ 32)

/-- The loop `for (count = 0; n; ++count) { n &= n - 1; }` from the state
`(n, count)`, with `passes` counting the passes through the body made so far
(a counter of the embedding, not a variable of the program): the value of
`count` when the loop exits, and the number of passes made by then. -/
def count_bits_fast_loop (n count passes : Nat) : Nat × Nat :=
  if h : n = 0 then (count, passes)
  else count_bits_fast_loop (clear_lowest n) ((count + 1) % 2 ^ 32) (passes + 1)
termination_by n
decreasing_by
  unfold clear_lowest
  exact Nat.lt_of_le_of_lt Nat.and_le_right (by omega)

/-- The function `uint32_t count_bits_fast(uint32_t n)`: the value of `count`
at the exit of its loop, entered with `count = 0`. -/
def count_bits_fast (n : Nat) : Nat :=
  (count_bits_fast_loop n 0 0).1

/-- Number of passes through the body that the loop of `count_bits_fast` makes
on input `n`. -/
def count_bits_fast_iterations (n : Nat) : Nat :=
  (count_bits_fast_loop n 0 0).2

/-! ## The lookup table (lines 53-59) -/

/-- The macro `#define B2(n)  n,     n+1,     n+1,     n+2`. -/
def B2 (n : Int) : List Int := [n, n + 1, n + 1, n + 2]

/-- The macro `#define B4(n)  B2(n), B2(n+1), B2(n+1), B2(n+2)`. -/
def B4 (n : Int) : List Int := B2 n ++ B2 (n + 1) ++ B2 (n + 1) ++ B2 (n + 2)

/-- The macro `#define B6(n)  B4(n), B4(n+1), B4(n+1), B4(n+2)`. -/
def B6 (n : Int) : List Int := B4 n ++ B4 (n + 1) ++ B4 (n + 1) ++ B4 (n + 2)

/-- The initialiser list `B6(0), B6(1), B6(1), B6(2)` of the table, as the
`int` values the macros expand to. -/
def BitsSetTable256_init : List Int := B6 0 ++ B6 1 ++ B6 1 ++ B6 2

/-- The array `static const uint8_t BitsSetTable256[256]`: the initialisers converted to
`uint8_t`. -/
def BitsSetTable256 : List Nat := BitsSetTable256_init.map toU8

/-! ## `count_bits_lookup` (lines 64-73) -/

/-- Byte order of the host, which fixes what `((uint8_t *) &n)[k]` reads. -/
inductive ByteOrder where
  | little
  | big
deriving DecidableEq, Repr

/-- The byte `p[k]` of `uint8_t *p = (uint8_t *) &n;` for `k` in `0..3`: on a
little-endian host `p[0]` is the least significant byte, on a big-endian host
the most significant one. -/
def byte_at (o : ByteOrder) (n k : Nat) : Nat :=
  match o with
  | ByteOrder.little => (n >>> (8 * k)) &&& 0xFF
  | ByteOrder.big => (n >>> (8 * (3 - k))) &&& 0xFF

/-- The function `uint32_t count_bits_lookup(uint32_t n)` on a host of byte
order `o`. The four table entries are promoted to `int`, added, and the sum is
converted to `uint32_t`. A table read outside the array gives `none`. -/
def count_bits_lookup (o : ByteOrder) (n : Nat) : Option Nat := do
  let t0 ← BitsSetTable256[byte_at o n 0]?
  let t1 ← BitsSetTable256[byte_at o n 1]?
  let t2 ← BitsSetTable256[byte_at o n 2]?
  let t3 ← BitsSetTable256[byte_at o n 3]?
  pure ((t0 + t1 + t2 + t3) % 2 ^ 32)

/-! ## `test_bc_fn` (lines 75-89) -/

/-- Observable steps of the verifier: a call of the function under test, and a
`fprintf(stderr, ...)` with its four arguments. -/
inductive Event where
  | call (input : Nat)
  | diag (fn_name : String) (input expected actual : Nat)
deriving DecidableEq, Repr

/-- The line written by
`fprintf(stderr, "%s failed test: input was %u, expected result was %u bits set, actual result was %u!\n", ...)`. -/
def diagnostic_line (fn_name : String) (input expected actual : Nat) : String :=
  fn_name ++ " failed test: input was " ++ toString (input % 2 ^ 32) ++
    ", expected result was " ++ toString (expected % 2 ^ 32) ++
    " bits set, actual result was " ++ toString (actual % 2 ^ 32) ++ "!\n"

/-- One pass through the body of the `for` loop of `test_bc_fn` at index `i`,
appending to the events so far. -/
def test_bc_fn_body (function : Nat → Option Nat) (fn_name : String) (i : Nat)
    (events : List Event) : Option (List Event) := do
  let input ← test_input[i]?
  let expected ← test_expected[i]?
  let count ← function input
  if count ≠ expected then
    pure (events ++ [Event.call input, Event.diag fn_name input expected count])
  else
    pure (events ++ [Event.call input])

/-- The loop `for (i = 0; i < N_CASES; ++i)` of `test_bc_fn` from index `i`,
with the events produced so far. -/
def test_bc_fn_loop (function : Nat → Option Nat) (fn_name : String) (i : Nat)
    (events : List Event) : Option (List Event) :=
  if i < N_CASES then
    match test_bc_fn_body function fn_name i events with
    | none => none
    | some events1 => test_bc_fn_loop function fn_name (i + 1) events1
  else some events
termination_by N_CASES - i

/-- The function `void test_bc_fn(bc_fn_ptr function, const char *fn_name)`:
the events it produces. The function under test is a `Nat → Option Nat`, with
`none` for a call that has no value. -/
def test_bc_fn (function : Nat → Option Nat) (fn_name : String) : Option (List Event) :=
  test_bc_fn_loop function fn_name 0 []

/-- The diagnostics among a list of events. -/
def diagnostics (events : List Event) : List Event :=
  events.filter (fun e => match e with
    | Event.diag _ _ _ _ => true
    | Event.call _ => false)

/-- The inputs of the calls among a list of events, in order. -/
def calls (events : List Event) : List Nat :=
  events.filterMap (fun e => match e with
    | Event.call input => some input
    | Event.diag _ _ _ _ => none)

/-- What a list of events writes to `stderr`: one line for each diagnostic, in
order; a call writes nothing. -/
def stderr_lines (events : List Event) : List String :=
  events.filterMap (fun e => match e with
    | Event.diag fn_name input expected actual =>
      some (diagnostic_line fn_name input expected actual)
    | Event.call _ => none)

/-! ## `dummy` (lines 94-98) -/

/-- The function `uint32_t dummy(uint32_t n)`: `(void) n; return 0;`. -/
def dummy (_n : Nat) : Nat := 0

/-! ## `time_bc_fn` (lines 105-115) -/

/-- What the program takes from its host through `time.h` and `stdlib.h`: the
constant `CLOCKS_PER_SEC`, the value of the `k`-th call of `clock()` and the
value of the `k`-th call of `rand()`, counting from 0. A `clock_t` is an
integer without bound here. -/
structure Host where
  CLOCKS_PER_SEC : Int
  clock : Nat → Int
  rand : Nat → Int

/-- How many calls of `clock()` and of `rand()` have been made. -/
structure Calls where
  clock_calls : Nat
  rand_calls : Nat
deriving DecidableEq, Repr

/-- The expression `clock() / (CLOCKS_PER_SEC / 1000)` at the `k`-th call of
`clock()`, with the truncating division of C. -/
def clock_msecs (h : Host) (k : Nat) : Int :=
  (h.clock k).tdiv (h.CLOCKS_PER_SEC.tdiv 1000)

/-- The loop `for (uint32_t i = 0; i < ITERATIONS; ++i) { count = function(rand()); }`
from index `i`, after `rand_calls` calls of `rand()`, with `counts` recording
the calls of `function` made so far, latest first, each as the argument passed
and the value assigned to `count` (a record of the embedding, not a variable
of the program): the number of calls of `rand()` and the record when the loop
exits. The value of `rand()` is converted to `uint32_t`; the program drops
`count`. -/
def time_bc_fn_loop (h : Host) (function : Nat → Option Nat) (i rand_calls : Nat)
    (counts : List (Nat × Nat)) : Option (Nat × List (Nat × Nat)) :=
  if i < ITERATIONS then
    match function (toU32 (h.rand rand_calls)) with
    | none => none
    | some count =>
      time_bc_fn_loop h function ((i + 1) % 2 ^ 32) (rand_calls + 1)
        ((toU32 (h.rand rand_calls), count) :: counts)
  else some (rand_calls, counts)
termination_by ITERATIONS - i
decreasing_by
  simp only [ITERATIONS] at *
  omega

/-- The function `uint32_t time_bc_fn(bc_fn_ptr function)` started after the
calls `s`: the value returned, `end - start` converted to `uint32_t`, the calls
of `clock()` and `rand()` made when it returns, and the record of the calls of
`function` it made, in order. There is no value when `CLOCKS_PER_SEC / 1000`
is 0 (division by zero). -/
def time_bc_fn_run (h : Host) (function : Nat → Option Nat) (s : Calls) :
    Option ((Nat × Calls) × List (Nat × Nat)) :=
  if h.CLOCKS_PER_SEC.tdiv 1000 = 0 then none
  else
    let start := clock_msecs h s.clock_calls
    match time_bc_fn_loop h function 0 s.rand_calls [] with
    | none => none
    | some (rand_calls, counts) =>
      let end_ := clock_msecs h (s.clock_calls + 1)
      some ((toU32 (end_ - start),
        { clock_calls := s.clock_calls + 2, rand_calls := rand_calls }), counts.reverse)

/-- The function `uint32_t time_bc_fn(bc_fn_ptr function)` started after the
calls `s`, without the record: the value returned and the calls of `clock()`
and `rand()` made when it returns. -/
def time_bc_fn (h : Host) (function : Nat → Option Nat) (s : Calls) :
    Option (Nat × Calls) :=
  (time_bc_fn_run h function s).map Prod.fst

/-! ## `main` (lines 117-131) -/

/-- The four functions whose address `main` passes as a `bc_fn_ptr`. -/
inductive Counter where
  | dummy_fn
  | naive_fn
  | fast_fn
  | lookup_fn
deriving DecidableEq, Repr

/-- The function a `bc_fn_ptr` of `main` points to, on a host of byte order `o`. -/
def Counter.call (o : ByteOrder) : Counter → Nat → Option Nat
  | Counter.dummy_fn, n => some (dummy n)
  | Counter.naive_fn, n => some (count_bits_naive n)
  | Counter.fast_fn, n => some (count_bits_fast n)
  | Counter.lookup_fn, n => count_bits_lookup o n

/-- Steps of `main`, in the order they happen: a call of `test_bc_fn` with the
display name passed and the events it produced, a call of `time_bc_fn` with
the record of the calls it made of the function passed (argument and value),
and a `printf` with the line it writes to `stdout`. -/
inductive MainEvent where
  | tested (fn_name : String) (events : List Event)
  | timed (counts : List (Nat × Nat))
  | printed (line : String)
deriving DecidableEq, Repr

/-- The body of `main` with the four functions given by `fns`: the steps it
performs and the exit status it returns. The arguments of a `printf` are
evaluated before the call. -/
def main_with (h : Host) (fns : Counter → Nat → Option Nat) :
    Option (List MainEvent × Int) := do
  let e1 ← test_bc_fn (fns Counter.naive_fn) "Naive method"
  let e2 ← test_bc_fn (fns Counter.fast_fn) "\"Fast\" method"
  let e3 ← test_bc_fn (fns Counter.lookup_fn) "Lookup table method"
  let p0 := "Testing bit counting methods over " ++ toString (ITERATIONS % 2 ^ 32) ++
    " iterations...\n"
  let r0 ← time_bc_fn_run h (fns Counter.dummy_fn) { clock_calls := 0, rand_calls := 0 }
  let p1 := "(Test overhead is ~" ++ toString (r0.1.1 % 2 ^ 32) ++ " msecs)\n"
  let r1 ← time_bc_fn_run h (fns Counter.naive_fn) r0.1.2
  let p2 := "Naive method:        " ++ toString (r1.1.1 % 2 ^ 32) ++ " msecs\n"
  let r2 ← time_bc_fn_run h (fns Counter.fast_fn) r1.1.2
  let p3 := "Fast method:         " ++ toString (r2.1.1 % 2 ^ 32) ++ " msecs\n"
  let r3 ← time_bc_fn_run h (fns Counter.lookup_fn) r2.1.2
  let p4 := "Lookup table method: " ++ toString (r3.1.1 % 2 ^ 32) ++ " msecs\n"
  pure ([MainEvent.tested "Naive method" e1,
    MainEvent.tested "\"Fast\" method" e2,
    MainEvent.tested "Lookup table method" e3,
    MainEvent.printed p0,
    MainEvent.timed r0.2, MainEvent.printed p1,
    MainEvent.timed r1.2, MainEvent.printed p2,
    MainEvent.timed r2.2, MainEvent.printed p3,
    MainEvent.timed r3.2, MainEvent.printed p4], 0)

/-- The function `int main(int argc, char const *argv[])` on a host `h` of byte
order `o`: its steps and its exit status. -/
def main (h : Host) (o : ByteOrder) : Option (List MainEvent × Int) :=
  main_with h (Counter.call o)

/-- A host for concrete instances: `CLOCKS_PER_SEC` is 1000000, the `k`-th
call of `clock()` gives `2500999 * (k + 1)` ticks and the `k`-th call of
`rand()` gives `k`. -/
def sample_host : Host :=
  { CLOCKS_PER_SEC := 1000000, clock := fun k => 2500999 * (k + 1), rand := fun k => k }

/-- A host whose clock ticks 100 times a second: `CLOCKS_PER_SEC` is 100, the
`k`-th call of `clock()` gives `250 * (k + 1)` ticks and the `k`-th call of
`rand()` gives `k`. -/
def coarse_clock_host : Host :=
  { CLOCKS_PER_SEC := 100, clock := fun k => 250 * (k + 1), rand := fun k => k }

/-! ## Reference population count -/

/-- Number of positions `i < w` at which bit `i` of `n` is 1. -/
def popcount_bits (w n : Nat) : Nat :=
  (List.range w).countP (fun i => n.testBit i)

/-- Reference population count of a 32-bit value: the number of 1-bits among
its 32 bits. -/
def popcount (n : Nat) : Nat :=
  popcount_bits 32 n

/-! ## Specification of the verifier -/

/-- Specification of the verifier, from its contract: for each case
`(input, expected)` in table order one call of `f` on `input`, followed by one
diagnostic carrying `(name, input, expected, f input)` exactly when
`f input ≠ expected`; then the remaining cases, whatever the outcome. -/
def spec_events (f : Nat → Nat) (name : String) : List (Nat × Nat) → List Event
  | [] => []
  | (input, expected) :: rest =>
    if f input ≠ expected then
      Event.call input :: Event.diag name input expected (f input) :: spec_events f name rest
    else
      Event.call input :: spec_events f name rest

/-! ## Specification of the driver -/

/-- Specification of what each of the four functions returns on a 32-bit
value: the no-op function 0, each counter the population count. -/
def spec_counter : Counter → Nat → Nat
  | Counter.dummy_fn, _ => 0
  | Counter.naive_fn, n => popcount n
  | Counter.fast_fn, n => popcount n
  | Counter.lookup_fn, n => popcount n

/-- Specification of a benchmark of `f`, from its contract: `ITERATIONS` calls
of `f`, the `j`-th on the value of the next call of `rand()` converted to
`uint32_t`, where `first` calls of `rand()` were made before; each call with
its argument and its value. -/
def spec_bench_calls (h : Host) (f : Nat → Nat) (first : Nat) : List (Nat × Nat) :=
  (List.range ITERATIONS).map
    (fun j => (toU32 (h.rand (first + j)), f (toU32 (h.rand (first + j)))))

/-- Specification of the driver, from its description, with `f` giving what
the four functions return: the verification of the naive, clear-lowest-bit and
lookup-table counters in that order, the line with the iteration count, then
for the no-op function and for each of the three counters in the same order
the benchmark followed by the line with its elapsed milliseconds; the `k`-th
benchmark reads the clock at calls `2k` and `2k + 1` and makes the calls of
`rand()` from `k * ITERATIONS` on. -/
def spec_main_steps (h : Host) (f : Counter → Nat → Nat) : List MainEvent :=
  [MainEvent.tested "Naive method"
      (spec_events (f Counter.naive_fn) "Naive method" (List.zip test_input test_expected)),
    MainEvent.tested "\"Fast\" method"
      (spec_events (f Counter.fast_fn) "\"Fast\" method" (List.zip test_input test_expected)),
    MainEvent.tested "Lookup table method"
      (spec_events (f Counter.lookup_fn) "Lookup table method"
        (List.zip test_input test_expected)),
    MainEvent.printed "Testing bit counting methods over 10000000 iterations...\n",
    MainEvent.timed (spec_bench_calls h (f Counter.dummy_fn) 0),
    MainEvent.printed ("(Test overhead is ~" ++
      toString (toU32 (clock_msecs h 1 - clock_msecs h 0)) ++ " msecs)\n"),
    MainEvent.timed (spec_bench_calls h (f Counter.naive_fn) ITERATIONS),
    MainEvent.printed ("Naive method:        " ++
      toString (toU32 (clock_msecs h 3 - clock_msecs h 2)) ++ " msecs\n"),
    MainEvent.timed (spec_bench_calls h (f Counter.fast_fn) (2 * ITERATIONS)),
    MainEvent.printed ("Fast method:         " ++
      toString (toU32 (clock_msecs h 5 - clock_msecs h 4)) ++ " msecs\n"),
    MainEvent.timed (spec_bench_calls h (f Counter.lookup_fn) (3 * ITERATIONS)),
    MainEvent.printed ("Lookup table method: " ++
      toString (toU32 (clock_msecs h 7 - clock_msecs h 6)) ++ " msecs\n")]

/-! ## Lemmas on the reference population count -/

theorem popcount_bits_le (w n : Nat) : popcount_bits w n ≤ w := by
  unfold popcount_bits
  exact (List.countP_le_length _).trans (by simp)

theorem popcount_bits_zero_width (n : Nat) : popcount_bits 0 n = 0 := by
  simp [popcount_bits]

theorem popcount_bits_succ (w n : Nat) :
    popcount_bits (w + 1) n = n % 2 + popcount_bits w (n / 2) := by
  unfold popcount_bits
  rw [List.range_succ_eq_map, List.countP_cons, List.countP_map]
  have hfun : ((fun i => n.testBit i) ∘ Nat.succ) = (fun i => (n / 2).testBit i) := by
    funext i
    simp [Nat.testBit_succ]
  rw [hfun, Nat.testBit_zero]
  rcases Nat.mod_two_eq_zero_or_one n with h | h
  · simp [h]
  · simp [h]; omega

theorem popcount_bits_of_zero (w : Nat) : popcount_bits w 0 = 0 := by
  simp [popcount_bits]

theorem popcount_bits_add (j k n : Nat) :
    popcount_bits (j + k) n = popcount_bits j n + popcount_bits k (n >>> j) := by
  unfold popcount_bits
  rw [List.range_add, List.countP_append, List.countP_map]
  congr 1
  apply congrArg (fun p => List.countP p (List.range k))
  funext i
  simp [Nat.testBit_shiftRight]

theorem popcount_bits_and_mask (k n : Nat) :
    popcount_bits k (n &&& (2 ^ k - 1)) = popcount_bits k n := by
  unfold popcount_bits
  apply List.countP_congr
  intro i hi
  have hi2 : i < k := List.mem_range.mp hi
  simp [Nat.testBit_and, Nat.testBit_two_pow_sub_one, hi2]

/-! ## Lemmas on the loops -/

theorem count_bits_naive_loop_eq (w : Nat) :
    ∀ n count passes : Nat, n < 2 ^ w → count + w < 2 ^ 32 →
      (count_bits_naive_loop n count passes).1 = count + popcount_bits w n := by
  induction w with
  | zero =>
    intro n count passes hn _
    have h0 : n = 0 := by simpa using hn
    subst h0
    rw [count_bits_naive_loop]
    simp [popcount_bits_of_zero]
  | succ w ih =>
    intro n count passes hn hc
    rw [count_bits_naive_loop]
    by_cases h0 : n = 0
    · subst h0
      simp [popcount_bits_of_zero]
    · rw [dif_neg h0, popcount_bits_succ, Nat.and_one_is_mod, shift_right_one,
        Nat.shiftRight_eq_div_pow, Nat.pow_one]
      have hb : n % 2 < 2 := Nat.mod_lt _ (by decide)
      have hlt : count + n % 2 < 2 ^ 32 := by omega
      rw [Nat.mod_eq_of_lt hlt]
      have hn2 : n / 2 < 2 ^ w := by
        rw [Nat.div_lt_iff_lt_mul (by decide)]
        rw [Nat.pow_succ] at hn
        exact hn
      rw [ih (n / 2) (count + n % 2) (passes + 1) hn2 (by omega)]
      omega

theorem count_bits_naive_loop_passes :
    ∀ n count passes : Nat,
      (count_bits_naive_loop n count passes).2 = passes + (count_bits_naive_loop n 0 0).2 := by
  intro n
  induction n using Nat.strong_induction_on with
  | _ n ih =>
    intro count passes
    by_cases h0 : n = 0
    · subst h0
      have z : ∀ c p : Nat, count_bits_naive_loop 0 c p = (c, p) := by
        intro c p
        rw [count_bits_naive_loop]
        simp
      rw [z, z]
      rfl
    · have hlt : shift_right_one n < n := by
        unfold shift_right_one
        rw [Nat.shiftRight_eq_div_pow]
        exact Nat.div_lt_self (Nat.pos_of_ne_zero h0) (by decide)
      rw [count_bits_naive_loop, dif_neg h0, ih _ hlt]
      conv => rhs; rw [count_bits_naive_loop, dif_neg h0, ih _ hlt]
      omega

theorem land_mod_two (a b : Nat) : (a &&& b) % 2 = (a % 2) * (b % 2) := by
  have h := Nat.testBit_and a b 0
  simp only [Nat.testBit_zero] at h
  rcases Nat.mod_two_eq_zero_or_one a with ha | ha <;>
  rcases Nat.mod_two_eq_zero_or_one b with hb | hb <;>
  rcases Nat.mod_two_eq_zero_or_one (a &&& b) with hab | hab <;>
  simp [ha, hb, hab] at h ⊢

theorem clear_lowest_eq (n : Nat) (hn : n < 2 ^ 32) (h0 : n ≠ 0) :
    clear_lowest n = n &&& (n - 1) := by
  unfold clear_lowest
  have e : (n + 2 ^ 32 - 1) % 2 ^ 32 = n - 1 := by omega
  rw [e]

theorem popcount_bits_land_pred (w : Nat) :
    ∀ n : Nat, n ≠ 0 → n < 2 ^ w →
      popcount_bits w (n &&& (n - 1)) + 1 = popcount_bits w n := by
  induction w with
  | zero =>
    intro n h0 hn
    have : n = 0 := by simpa using hn
    exact absurd this h0
  | succ w ih =>
    intro n h0 hn
    rw [popcount_bits_succ, popcount_bits_succ, land_mod_two, Nat.and_div_two]
    have hn2 : n / 2 < 2 ^ w := by
      rw [Nat.div_lt_iff_lt_mul (by decide)]
      rw [Nat.pow_succ] at hn
      exact hn
    rcases Nat.mod_two_eq_zero_or_one n with h | h
    · have hne : n / 2 ≠ 0 := by omega
      have e1 : (n - 1) / 2 = n / 2 - 1 := by omega
      rw [e1, h, Nat.zero_mul, Nat.zero_add, Nat.zero_add]
      exact ih (n / 2) hne hn2
    · have e1 : (n - 1) / 2 = n / 2 := by omega
      have e2 : (n - 1) % 2 = 0 := by omega
      rw [e1, e2, h, Nat.and_self]
      omega

theorem popcount_clear_lowest (n : Nat) (hn : n < 2 ^ 32) (h0 : n ≠ 0) :
    popcount (clear_lowest n) + 1 = popcount n := by
  rw [clear_lowest_eq n hn h0]
  exact popcount_bits_land_pred 32 n h0 hn

theorem clear_lowest_lt (n : Nat) (h0 : n ≠ 0) : clear_lowest n < n := by
  unfold clear_lowest
  exact Nat.lt_of_le_of_lt Nat.and_le_right (by omega)

theorem count_bits_fast_loop_eq :
    ∀ n count passes : Nat, n < 2 ^ 32 → count + popcount n < 2 ^ 32 →
      (count_bits_fast_loop n count passes).1 = count + popcount n := by
  intro n
  induction n using Nat.strong_induction_on with
  | _ n ih =>
    intro count passes hn hc
    rw [count_bits_fast_loop]
    by_cases h0 : n = 0
    · subst h0
      simp [popcount, popcount_bits_of_zero]
    · rw [dif_neg h0]
      have hlt := clear_lowest_lt n h0
      have hpc := popcount_clear_lowest n hn h0
      have hc1 : (count + 1) % 2 ^ 32 = count + 1 := Nat.mod_eq_of_lt (by omega)
      rw [hc1, ih (clear_lowest n) hlt (count + 1) (passes + 1) (by omega) (by omega)]
      omega

theorem count_bits_fast_loop_passes :
    ∀ n count passes : Nat, n < 2 ^ 32 →
      (count_bits_fast_loop n count passes).2 = passes + popcount n := by
  intro n
  induction n using Nat.strong_induction_on with
  | _ n ih =>
    intro count passes hn
    rw [count_bits_fast_loop]
    by_cases h0 : n = 0
    · subst h0
      simp [popcount, popcount_bits_of_zero]
    · rw [dif_neg h0]
      have hlt := clear_lowest_lt n h0
      have hpc := popcount_clear_lowest n hn h0
      rw [ih (clear_lowest n) hlt _ (passes + 1) (by omega)]
      omega

theorem count_bits_fast_iterations_eq :
    ∀ n : Nat, n < 2 ^ 32 → count_bits_fast_iterations n = popcount n := by
  intro n hn
  unfold count_bits_fast_iterations
  rw [count_bits_fast_loop_passes n 0 0 hn, Nat.zero_add]

/-! ## Lemmas on the lookup table -/

set_option maxRecDepth 100000 in
theorem BitsSetTable256_length : BitsSetTable256.length = 256 := by
  decide

set_option maxRecDepth 100000 in
theorem BitsSetTable256_entry :
    ∀ b : Nat, b < 256 → BitsSetTable256[b]? = some (popcount_bits 8 b) := by
  decide

theorem byte_at_lt (o : ByteOrder) (n k : Nat) : byte_at o n k < 256 := by
  have h : ∀ m : Nat, m &&& 0xFF < 256 := fun m =>
    Nat.lt_of_le_of_lt Nat.and_le_right (by decide)
  cases o <;> exact h _

theorem table_at_byte (m : Nat) :
    BitsSetTable256[m &&& 0xFF]? = some (popcount_bits 8 m) := by
  have hlt : m &&& 0xFF < 256 := Nat.lt_of_le_of_lt Nat.and_le_right (by decide)
  rw [BitsSetTable256_entry _ hlt]
  exact congrArg some (popcount_bits_and_mask 8 m)

theorem popcount_bytes (n : Nat) :
    popcount n = popcount_bits 8 n + popcount_bits 8 (n >>> 8) +
      popcount_bits 8 (n >>> 16) + popcount_bits 8 (n >>> 24) := by
  unfold popcount
  have e : (32 : Nat) = 8 + (8 + (8 + 8)) := rfl
  rw [e, popcount_bits_add, popcount_bits_add, popcount_bits_add,
    ← Nat.shiftRight_add, ← Nat.shiftRight_add]
  simp only [Nat.reduceAdd]
  omega

theorem count_bits_lookup_eq (o : ByteOrder) (n : Nat) :
    count_bits_lookup o n = some (popcount n) := by
  have hle : popcount n ≤ 32 := popcount_bits_le 32 n
  have hb := popcount_bytes n
  cases o
  · simp only [count_bits_lookup, byte_at, table_at_byte, Option.bind_eq_bind,
      Option.some_bind, Option.pure_def, Nat.reduceMul, Nat.shiftRight_zero]
    rw [Nat.mod_eq_of_lt (by omega)]
    exact congrArg some (by omega)
  · simp only [count_bits_lookup, byte_at, table_at_byte, Option.bind_eq_bind,
      Option.some_bind, Option.pure_def, Nat.reduceSub, Nat.reduceMul, Nat.shiftRight_zero]
    rw [Nat.mod_eq_of_lt (by omega)]
    exact congrArg some (by omega)

/-! ## Lemmas on the verifier -/

theorem test_input_eq : test_input = [0, 1, 2, 3, 0xFFFFFFFF, 0xFFFFFFFE] := by
  rfl

theorem test_expected_eq : test_expected = [0, 1, 1, 2, 32, 31] := by
  rfl

theorem test_bc_fn_loop_step (g : Nat → Option Nat) (name : String) (i a b v : Nat)
    (events : List Event) (hi : i < N_CASES) (ha : test_input[i]? = some a)
    (hb : test_expected[i]? = some b) (hv : g a = some v) :
    test_bc_fn_loop g name i events =
      test_bc_fn_loop g name (i + 1)
        (events ++ (if v ≠ b then [Event.call a, Event.diag name a b v] else [Event.call a])) := by
  rw [test_bc_fn_loop, if_pos hi]
  have hbody : test_bc_fn_body g name i events =
      some (events ++ (if v ≠ b then [Event.call a, Event.diag name a b v]
        else [Event.call a])) := by
    simp only [test_bc_fn_body, ha, hb, hv, Option.bind_eq_bind, Option.some_bind,
      Option.pure_def]
    split <;> rfl
  rw [hbody]

theorem test_bc_fn_loop_exit (g : Nat → Option Nat) (name : String) (events : List Event) :
    test_bc_fn_loop g name N_CASES events = some events := by
  rw [test_bc_fn_loop, if_neg (Nat.lt_irrefl _)]

theorem spec_events_nil (f : Nat → Nat) (name : String) :
    spec_events f name [] = [] := by
  rw [spec_events]

theorem spec_events_cons (f : Nat → Nat) (name : String) (a b : Nat)
    (rest : List (Nat × Nat)) :
    spec_events f name ((a, b) :: rest) =
      (if f a ≠ b then [Event.call a, Event.diag name a b (f a)] else [Event.call a]) ++
        spec_events f name rest := by
  rw [spec_events]
  split <;> rfl

theorem test_bc_fn_run (g : Nat → Option Nat) (f : Nat → Nat) (name : String)
    (hg : ∀ a, a ∈ test_input → g a = some (f a)) :
    test_bc_fn g name = some (spec_events f name (List.zip test_input test_expected)) := by
  have h0 : test_input[0]? = some 0 := rfl
  have h1 : test_input[1]? = some 1 := rfl
  have h2 : test_input[2]? = some 2 := rfl
  have h3 : test_input[3]? = some 3 := rfl
  have h4 : test_input[4]? = some 0xFFFFFFFF := rfl
  have h5 : test_input[5]? = some 0xFFFFFFFE := rfl
  have e0 : test_expected[0]? = some 0 := rfl
  have e1 : test_expected[1]? = some 1 := rfl
  have e2 : test_expected[2]? = some 1 := rfl
  have e3 : test_expected[3]? = some 2 := rfl
  have e4 : test_expected[4]? = some 32 := rfl
  have e5 : test_expected[5]? = some 31 := rfl
  have m : ∀ i a, test_input[i]? = some a → g a = some (f a) := fun i a h =>
    hg a (List.getElem?_mem h)
  unfold test_bc_fn
  rw [test_bc_fn_loop_step g name 0 _ _ _ _ (by decide) h0 e0 (m 0 _ h0),
    test_bc_fn_loop_step g name 1 _ _ _ _ (by decide) h1 e1 (m 1 _ h1),
    test_bc_fn_loop_step g name 2 _ _ _ _ (by decide) h2 e2 (m 2 _ h2),
    test_bc_fn_loop_step g name 3 _ _ _ _ (by decide) h3 e3 (m 3 _ h3),
    test_bc_fn_loop_step g name 4 _ _ _ _ (by decide) h4 e4 (m 4 _ h4),
    test_bc_fn_loop_step g name 5 _ _ _ _ (by decide) h5 e5 (m 5 _ h5)]
  rw [show (5 + 1 : Nat) = N_CASES from rfl, test_bc_fn_loop_exit]
  rw [test_input_eq, test_expected_eq]
  simp only [List.zip_cons_cons, List.zip_nil_right, spec_events_cons, spec_events_nil,
    List.nil_append, List.append_nil, List.append_assoc]

theorem calls_spec_events (f : Nat → Nat) (name : String) (cases : List (Nat × Nat)) :
    calls (spec_events f name cases) = cases.map Prod.fst := by
  induction cases with
  | nil => rfl
  | cons c rest ih =>
    obtain ⟨input, expected⟩ := c
    unfold spec_events
    split
    · simpa [calls] using ih
    · simpa [calls] using ih

theorem diagnostics_map_call (inputs : List Nat) :
    diagnostics (inputs.map Event.call) = [] := by
  induction inputs with
  | nil => rfl
  | cons a rest _ => simp [diagnostics]

theorem spec_events_of_agree (f : Nat → Nat) (name : String) (cases : List (Nat × Nat))
    (h : ∀ c, c ∈ cases → f c.1 = c.2) :
    spec_events f name cases = (cases.map Prod.fst).map Event.call := by
  induction cases with
  | nil => rfl
  | cons c rest ih =>
    obtain ⟨input, expected⟩ := c
    have hc : f input = expected := h (input, expected) (List.mem_cons_self _ _)
    have hrest := ih (fun c hc => h c (List.mem_cons_of_mem _ hc))
    simp [spec_events, hc, hrest]

theorem diagnostics_spec_events (f : Nat → Nat) (name : String) (cases : List (Nat × Nat)) :
    diagnostics (spec_events f name cases) =
      (cases.filter (fun c => decide (f c.1 ≠ c.2))).map
        (fun c => Event.diag name c.1 c.2 (f c.1)) := by
  induction cases with
  | nil => rfl
  | cons c rest ih =>
    obtain ⟨input, expected⟩ := c
    unfold spec_events
    by_cases h : f input = expected
    · simpa [h, diagnostics] using ih
    · simpa [h, diagnostics] using ih

theorem popcount_eq_bits8 (b : Nat) (hb : b < 256) : popcount b = popcount_bits 8 b := by
  have h8 : b >>> 8 = 0 := by
    rw [Nat.shiftRight_eq_div_pow]
    exact Nat.div_eq_of_lt (by omega)
  have h16 : b >>> 16 = 0 := by
    rw [Nat.shiftRight_eq_div_pow]
    exact Nat.div_eq_of_lt (by omega)
  have h24 : b >>> 24 = 0 := by
    rw [Nat.shiftRight_eq_div_pow]
    exact Nat.div_eq_of_lt (by omega)
  rw [popcount_bytes, h8, h16, h24, popcount_bits_of_zero]
  omega

theorem popcount_pos (n : Nat) (hn : n < 2 ^ 32) (h0 : n ≠ 0) : 0 < popcount n := by
  have := popcount_clear_lowest n hn h0
  omega

theorem popcount_iterate_clear_lowest (k : Nat) :
    ∀ n : Nat, n < 2 ^ 32 → k ≤ popcount n →
      clear_lowest^[k] n < 2 ^ 32 ∧ popcount (clear_lowest^[k] n) = popcount n - k := by
  induction k with
  | zero =>
    intro n hn _
    exact ⟨hn, rfl⟩
  | succ k ih =>
    intro n hn hk
    have h0 : n ≠ 0 := by
      intro h
      subst h
      simp [popcount, popcount_bits_of_zero] at hk
    have hlt := clear_lowest_lt n h0
    have hpc := popcount_clear_lowest n hn h0
    rw [Function.iterate_succ_apply]
    obtain ⟨h1, h2⟩ := ih (clear_lowest n) (by omega) (by omega)
    exact ⟨h1, by omega⟩

theorem count_bits_naive_eq (n : Nat) (hn : n < 2 ^ 32) :
    count_bits_naive n = popcount n := by
  unfold count_bits_naive popcount
  rw [count_bits_naive_loop_eq 32 n 0 0 hn (by decide), Nat.zero_add]

theorem count_bits_fast_eq (n : Nat) (hn : n < 2 ^ 32) :
    count_bits_fast n = popcount n := by
  have hle : popcount n ≤ 32 := popcount_bits_le 32 n
  unfold count_bits_fast
  rw [count_bits_fast_loop_eq n 0 0 hn (by omega), Nat.zero_add]

/-! ## The claims -/

/-- C1: for every unsigned 32-bit value `n`, `count_bits_naive n` is the
reference population count of `n`, the number of 1-bits among its 32 bits. -/
theorem count_bits_naive_eq_popcount (n : Nat) (hn : n < 2 ^ 32) :
    count_bits_naive n = popcount n :=
  count_bits_naive_eq n hn

theorem count_bits_naive_eq_popcount_witness :
    0x12345678 < 2 ^ 32 ∧ count_bits_naive 0x12345678 = popcount 0x12345678 :=
  ⟨by decide, count_bits_naive_eq_popcount 0x12345678 (by decide)⟩

/-- C2: for every unsigned 32-bit value `n`, `count_bits_fast n`, the
clear-lowest-bit loop with `n - 1` taken modulo `2 ^ 32`, is the reference
population count of `n`. -/
theorem count_bits_fast_eq_popcount (n : Nat) (hn : n < 2 ^ 32) :
    count_bits_fast n = popcount n :=
  count_bits_fast_eq n hn

theorem count_bits_fast_eq_popcount_witness :
    0xFFFFFFFE < 2 ^ 32 ∧ count_bits_fast 0xFFFFFFFE = popcount 0xFFFFFFFE :=
  ⟨by decide, count_bits_fast_eq_popcount 0xFFFFFFFE (by decide)⟩

/-- C3: for every value `n` (in particular every unsigned 32-bit one) and on
either byte order, `count_bits_lookup n` reads the table four times in bounds
and returns the reference population count of `n`, the sum of
`BitsSetTable256` over the four bytes of `n`. -/
theorem count_bits_lookup_eq_popcount (o : ByteOrder) (n : Nat) :
    count_bits_lookup o n = some (popcount n) :=
  count_bits_lookup_eq o n

/-- C4: the table produced by the `B2`/`B4`/`B6` expansion has exactly 256
entries, and for every byte value `b` in `[0,255]` its entry at `b` is the
population count of `b`. -/
theorem BitsSetTable256_correct (b : Nat) (hb : b < 256) :
    BitsSetTable256_init.length = 256 ∧ BitsSetTable256.length = 256 ∧
      BitsSetTable256[b]? = some (popcount b) := by
  refine ⟨?_, BitsSetTable256_length, ?_⟩
  · have h := BitsSetTable256_length
    unfold BitsSetTable256 at h
    rwa [List.length_map] at h
  · rw [BitsSetTable256_entry b hb, popcount_eq_bits8 b hb]

theorem BitsSetTable256_correct_witness :
    (255 : Nat) < 256 ∧ BitsSetTable256_init.length = 256 ∧ BitsSetTable256.length = 256 ∧
      BitsSetTable256[255]? = some (popcount 255) :=
  ⟨by decide, BitsSetTable256_correct 255 (by decide)⟩

/-- C5: run over the fixed 6-case table under the names used in `main`, the
verifier completes for each of `count_bits_naive`, `count_bits_fast` and
`count_bits_lookup` (on either byte order) with the six calls and nothing
else: no case mismatches and no diagnostic is emitted. -/
theorem test_bc_fn_no_diagnostics :
    test_bc_fn (fun n => some (count_bits_naive n)) "Naive method"
        = some (test_input.map Event.call) ∧
      test_bc_fn (fun n => some (count_bits_fast n)) "\"Fast\" method"
        = some (test_input.map Event.call) ∧
      (∀ o : ByteOrder, test_bc_fn (count_bits_lookup o) "Lookup table method"
        = some (test_input.map Event.call)) ∧
      diagnostics (test_input.map Event.call) = [] := by
  have hin : ∀ a, a ∈ test_input → a < 2 ^ 32 := by
    rw [test_input_eq]
    decide
  have hpc : ∀ c, c ∈ List.zip test_input test_expected → popcount c.1 = c.2 := by
    rw [test_input_eq, test_expected_eq]
    decide
  have hmap : (List.zip test_input test_expected).map Prod.fst = test_input := by
    rw [test_input_eq, test_expected_eq]
    rfl
  have key : ∀ name : String,
      spec_events popcount name (List.zip test_input test_expected)
        = test_input.map Event.call := by
    intro name
    rw [spec_events_of_agree popcount name _ hpc, hmap]
  refine ⟨?_, ?_, ?_, diagnostics_map_call test_input⟩
  · rw [test_bc_fn_run _ popcount "Naive method"
      (fun a ha => congrArg some (count_bits_naive_eq a (hin a ha)))]
    rw [key]
  · rw [test_bc_fn_run _ popcount "\"Fast\" method"
      (fun a ha => congrArg some (count_bits_fast_eq a (hin a ha)))]
    rw [key]
  · intro o
    rw [test_bc_fn_run _ popcount "Lookup table method"
      (fun a _ => count_bits_lookup_eq o a)]
    rw [key]

/-- C6: for every counter function `f` and display name, the verifier calls
`f` on the 6 test inputs in table order, emits exactly one diagnostic carrying
`(name, input, expected, f input)` after the call of each case with
`f input ≠ expected` and none for the other cases, and goes on through the
remaining cases after a mismatch. -/
theorem test_bc_fn_contract (f : Nat → Nat) (name : String) :
    test_bc_fn (fun n => some (f n)) name
        = some (spec_events f name (List.zip test_input test_expected)) ∧
      List.zip test_input test_expected
        = [(0, 0), (1, 1), (2, 1), (3, 2), (0xFFFFFFFF, 32), (0xFFFFFFFE, 31)] ∧
      calls (spec_events f name (List.zip test_input test_expected)) = test_input ∧
      diagnostics (spec_events f name (List.zip test_input test_expected)) =
        ((List.zip test_input test_expected).filter (fun c => decide (f c.1 ≠ c.2))).map
          (fun c => Event.diag name c.1 c.2 (f c.1)) := by
  refine ⟨test_bc_fn_run _ f name (fun _ _ => rfl), ?_, ?_, diagnostics_spec_events f name _⟩
  · rw [test_input_eq, test_expected_eq]
    rfl
  · rw [calls_spec_events, test_input_eq, test_expected_eq]
    rfl

/-- C7: for every unsigned 32-bit input `n`, each of `count_bits_naive`,
`count_bits_fast` and `count_bits_lookup` (on either byte order) returns a
value, and that value is at most 32. -/
theorem counters_defined_in_range (n : Nat) (hn : n < 2 ^ 32) :
    count_bits_naive n ≤ 32 ∧ count_bits_fast n ≤ 32 ∧
      ∀ o : ByteOrder, ∃ v : Nat, count_bits_lookup o n = some v ∧ v ≤ 32 := by
  have hle : popcount n ≤ 32 := popcount_bits_le 32 n
  refine ⟨?_, ?_, fun o => ⟨popcount n, count_bits_lookup_eq o n, hle⟩⟩
  · rw [count_bits_naive_eq n hn]
    exact hle
  · rw [count_bits_fast_eq n hn]
    exact hle

theorem counters_defined_in_range_witness :
    0x80000001 < 2 ^ 32 ∧ count_bits_naive 0x80000001 ≤ 32 ∧ count_bits_fast 0x80000001 ≤ 32 ∧
      ∀ o : ByteOrder, ∃ v : Nat, count_bits_lookup o 0x80000001 = some v ∧ v ≤ 32 :=
  ⟨by decide, counters_defined_in_range 0x80000001 (by decide)⟩

/-- C8: each of the three counters gives 0 on input 0 and 32 on input
`0xFFFFFFFF`. -/
theorem counters_at_zero_and_ones :
    count_bits_naive 0 = 0 ∧ count_bits_naive 0xFFFFFFFF = 32 ∧
      count_bits_fast 0 = 0 ∧ count_bits_fast 0xFFFFFFFF = 32 ∧
      ∀ o : ByteOrder, count_bits_lookup o 0 = some 0 ∧
        count_bits_lookup o 0xFFFFFFFF = some 32 := by
  have p0 : popcount 0 = 0 := by decide
  have p1 : popcount 0xFFFFFFFF = 32 := by decide
  refine ⟨?_, ?_, ?_, ?_, fun o => ⟨?_, ?_⟩⟩
  · rw [count_bits_naive_eq 0 (by decide), p0]
  · rw [count_bits_naive_eq 0xFFFFFFFF (by decide), p1]
  · rw [count_bits_fast_eq 0 (by decide), p0]
  · rw [count_bits_fast_eq 0xFFFFFFFF (by decide), p1]
  · rw [count_bits_lookup_eq o 0, p0]
  · rw [count_bits_lookup_eq o 0xFFFFFFFF, p1]

/-- C9: for every unsigned 32-bit value `n`,
`count_bits_naive n = count_bits_naive (n >> 1) + (n & 1)` with the logical
right shift, and the sum on the right does not wrap in 32 bits. -/
theorem count_bits_naive_shift (n : Nat) (hn : n < 2 ^ 32) :
    count_bits_naive n = count_bits_naive (n >>> 1) + (n &&& 1) ∧
      count_bits_naive (n >>> 1) + (n &&& 1) < 2 ^ 32 := by
  have hn2 : n >>> 1 < 2 ^ 31 := by
    rw [Nat.shiftRight_eq_div_pow]
    omega
  have h1 : count_bits_naive n = n % 2 + popcount_bits 31 (n / 2) := by
    rw [count_bits_naive_eq n hn]
    exact popcount_bits_succ 31 n
  have h2 : count_bits_naive (n >>> 1) = popcount_bits 31 (n >>> 1) := by
    unfold count_bits_naive
    rw [count_bits_naive_loop_eq 31 (n >>> 1) 0 0 hn2 (by decide), Nat.zero_add]
  have h3 : n >>> 1 = n / 2 := by
    rw [Nat.shiftRight_eq_div_pow, Nat.pow_one]
  have hle : popcount_bits 31 (n / 2) ≤ 31 := popcount_bits_le 31 _
  rw [h1, h2, Nat.and_one_is_mod, h3]
  omega

theorem count_bits_naive_shift_witness :
    0xFFFFFFFF < 2 ^ 32 ∧
      count_bits_naive 0xFFFFFFFF = count_bits_naive (0xFFFFFFFF >>> 1) + (0xFFFFFFFF &&& 1) ∧
      count_bits_naive (0xFFFFFFFF >>> 1) + (0xFFFFFFFF &&& 1) < 2 ^ 32 :=
  ⟨by decide, count_bits_naive_shift 0xFFFFFFFF (by decide)⟩

/-- C10: for every unsigned 32-bit value `n` the loop of `count_bits_fast`
terminates after exactly `popcount n` passes: its body runs `popcount n`
times, `n &= n - 1` applied `popcount n` times gives 0, applied fewer times it
gives a non-zero value, and the count returned is that number of passes. -/
theorem count_bits_fast_iterations_eq_popcount (n : Nat) (hn : n < 2 ^ 32) :
    count_bits_fast_iterations n = popcount n ∧
      clear_lowest^[popcount n] n = 0 ∧
      (∀ k : Nat, k < popcount n → clear_lowest^[k] n ≠ 0) ∧
      count_bits_fast n = count_bits_fast_iterations n := by
  refine ⟨count_bits_fast_iterations_eq n hn, ?_, ?_, ?_⟩
  · obtain ⟨h1, h2⟩ := popcount_iterate_clear_lowest (popcount n) n hn (Nat.le_refl _)
    by_contra h0
    have := popcount_pos _ h1 h0
    omega
  · intro k hk h0
    obtain ⟨_, h2⟩ := popcount_iterate_clear_lowest k n hn (Nat.le_of_lt hk)
    rw [h0] at h2
    have p0 : popcount 0 = 0 := popcount_bits_of_zero 32
    omega
  · rw [count_bits_fast_eq n hn, count_bits_fast_iterations_eq n hn]

theorem count_bits_fast_iterations_eq_popcount_witness :
    0x00F0F001 < 2 ^ 32 ∧
      count_bits_fast_iterations 0x00F0F001 = popcount 0x00F0F001 ∧
      clear_lowest^[popcount 0x00F0F001] 0x00F0F001 = 0 ∧
      (∀ k : Nat, k < popcount 0x00F0F001 → clear_lowest^[k] 0x00F0F001 ≠ 0) ∧
      count_bits_fast 0x00F0F001 = count_bits_fast_iterations 0x00F0F001 :=
  ⟨by decide, count_bits_fast_iterations_eq_popcount 0x00F0F001 (by decide)⟩

/-! ## Lemmas on the number of passes of the shift-and-test loop -/

theorem count_bits_naive_iterations_zero : count_bits_naive_iterations 0 = 0 := by
  rw [count_bits_naive_iterations, count_bits_naive_loop]
  simp

theorem count_bits_naive_iterations_succ (n : Nat) (h0 : n ≠ 0) :
    count_bits_naive_iterations n = count_bits_naive_iterations (n / 2) + 1 := by
  unfold count_bits_naive_iterations
  rw [count_bits_naive_loop, dif_neg h0, count_bits_naive_loop_passes, shift_right_one,
    Nat.shiftRight_eq_div_pow, Nat.pow_one]
  omega

theorem count_bits_naive_iterations_bounds (w : Nat) :
    ∀ n : Nat, n < 2 ^ w →
      count_bits_naive_iterations n ≤ w ∧
      popcount_bits w n ≤ count_bits_naive_iterations n ∧
      (popcount_bits w n = count_bits_naive_iterations n ↔
        n + 1 = 2 ^ count_bits_naive_iterations n) := by
  induction w with
  | zero =>
    intro n hn
    have h0 : n = 0 := by simpa using hn
    subst h0
    simp [count_bits_naive_iterations_zero, popcount_bits_of_zero]
  | succ w ih =>
    intro n hn
    by_cases h0 : n = 0
    · subst h0
      simp [count_bits_naive_iterations_zero, popcount_bits_of_zero]
    · have hn2 : n / 2 < 2 ^ w := by
        rw [Nat.div_lt_iff_lt_mul (by decide)]
        rw [Nat.pow_succ] at hn
        exact hn
      obtain ⟨h1, h2, h3⟩ := ih (n / 2) hn2
      rw [count_bits_naive_iterations_succ n h0, popcount_bits_succ, Nat.pow_succ]
      have hb : n % 2 < 2 := Nat.mod_lt _ (by decide)
      refine ⟨by omega, by omega, ?_⟩
      constructor
      · intro h
        have hp : popcount_bits w (n / 2) = count_bits_naive_iterations (n / 2) := by omega
        have := h3.mp hp
        omega
      · intro h
        have hq : n / 2 + 1 = 2 ^ count_bits_naive_iterations (n / 2) := by omega
        have := h3.mpr hq
        omega

theorem count_bits_naive_iterations_log (n : Nat) :
    count_bits_naive_iterations n = if n = 0 then 0 else Nat.log 2 n + 1 := by
  induction n using Nat.strong_induction_on with
  | _ n ih =>
    by_cases h0 : n = 0
    · subst h0
      simp [count_bits_naive_iterations_zero]
    · rw [count_bits_naive_iterations_succ n h0, if_neg h0, ih (n / 2) (by omega)]
      by_cases h1 : n / 2 = 0
      · have hn1 : n < 2 := by omega
        rw [if_pos h1, Nat.log_of_lt hn1]
      · rw [if_neg h1, Nat.log_of_one_lt_of_le (by decide) (by omega : 2 ≤ n)]

theorem count_bits_naive_iterations_pow_pred (k : Nat) :
    count_bits_naive_iterations (2 ^ k - 1) = k := by
  induction k with
  | zero => simpa using count_bits_naive_iterations_zero
  | succ k ih =>
    have hp : 0 < 2 ^ k := Nat.two_pow_pos k
    have h0 : 2 ^ (k + 1) - 1 ≠ 0 := by
      rw [Nat.pow_succ]
      omega
    have hd : (2 ^ (k + 1) - 1) / 2 = 2 ^ k - 1 := by
      rw [Nat.pow_succ]
      omega
    rw [count_bits_naive_iterations_succ _ h0, hd, ih]

theorem count_bits_naive_iterations_range (n : Nat) (h0 : n ≠ 0) :
    2 ^ (count_bits_naive_iterations n - 1) ≤ n ∧ n < 2 ^ count_bits_naive_iterations n := by
  rw [count_bits_naive_iterations_log, if_neg h0, Nat.add_sub_cancel]
  exact ⟨Nat.pow_log_le_self 2 h0, Nat.lt_pow_succ_log_self (by decide) n⟩

theorem iterate_shiftRight_one (k n : Nat) : shift_right_one^[k] n = n >>> k := by
  induction k generalizing n with
  | zero => rfl
  | succ k ih =>
    have e : shift_right_one n = n / 2 := by
      rw [shift_right_one, Nat.shiftRight_eq_div_pow, Nat.pow_one]
    rw [Function.iterate_succ_apply, ih, e, Nat.shiftRight_succ_inside n k]

theorem testBit_top (n j : Nat) (lo : 2 ^ j ≤ n) (hi : n < 2 ^ (j + 1)) :
    n.testBit j = true := by
  rw [Nat.testBit_to_div_mod]
  have hq : n / 2 ^ j = 1 := by
    apply Nat.div_eq_of_lt_le
    · simpa using lo
    · rw [Nat.pow_succ] at hi
      omega
  rw [hq]
  rfl

/-- C11: for every unsigned 32-bit value `n` the loop of `count_bits_fast` runs
at most as many passes as the loop of `count_bits_naive`, and the two numbers
are equal exactly when `n = 2 ^ k - 1` for some `k` in `[0,32]`, that is when
every bit below the highest set bit is set; the two numbers are the pass
counts with which the two loops, entered at `count = 0`, exit. -/
theorem fast_iterations_le_naive_iterations (n : Nat) (hn : n < 2 ^ 32) :
    count_bits_fast_loop n 0 0 = (popcount n, count_bits_fast_iterations n) ∧
      count_bits_naive_loop n 0 0 = (popcount n, count_bits_naive_iterations n) ∧
      count_bits_fast_iterations n ≤ count_bits_naive_iterations n ∧
      (count_bits_fast_iterations n = count_bits_naive_iterations n ↔
        ∃ k : Nat, k ≤ 32 ∧ n = 2 ^ k - 1) := by
  obtain ⟨h1, h2, h3⟩ := count_bits_naive_iterations_bounds 32 n hn
  refine ⟨Prod.ext (count_bits_fast_eq n hn) rfl, Prod.ext (count_bits_naive_eq n hn) rfl, ?_⟩
  rw [count_bits_fast_iterations_eq n hn]
  refine ⟨h2, ?_⟩
  constructor
  · intro h
    have := h3.mp h
    exact ⟨count_bits_naive_iterations n, h1, by omega⟩
  · rintro ⟨k, _, hk⟩
    apply h3.mpr
    have hp : 0 < 2 ^ k := Nat.two_pow_pos k
    have hi : count_bits_naive_iterations n = k := by
      rw [hk]
      exact count_bits_naive_iterations_pow_pred k
    rw [hi]
    omega

theorem fast_iterations_le_naive_iterations_witness :
    0x0000FFFF < 2 ^ 32 ∧
      count_bits_fast_loop 0x0000FFFF 0 0
        = (popcount 0x0000FFFF, count_bits_fast_iterations 0x0000FFFF) ∧
      count_bits_naive_loop 0x0000FFFF 0 0
        = (popcount 0x0000FFFF, count_bits_naive_iterations 0x0000FFFF) ∧
      count_bits_fast_iterations 0x0000FFFF ≤ count_bits_naive_iterations 0x0000FFFF ∧
      (count_bits_fast_iterations 0x0000FFFF = count_bits_naive_iterations 0x0000FFFF ↔
        ∃ k : Nat, k ≤ 32 ∧ 0x0000FFFF = 2 ^ k - 1) :=
  ⟨by decide, fast_iterations_le_naive_iterations 0x0000FFFF (by decide)⟩

/-- C12: the fixed test table is exactly the 6 pairs `0→0, 1→1, 2→1, 3→2,
0xFFFFFFFF→32, 0xFFFFFFFE→31`, the initialisers `~0` and `(~0)-1` converting to
`0xFFFFFFFF` and `0xFFFFFFFE`; every expected value is the population count of
its input and is at most 32. -/
theorem test_table_correct :
    test_input = [0, 1, 2, 3, 0xFFFFFFFF, 0xFFFFFFFE] ∧
      test_expected = [0, 1, 1, 2, 32, 31] ∧
      test_input.length = N_CASES ∧ test_expected.length = N_CASES ∧
      toU32 (~~~ (0 : Int)) = 0xFFFFFFFF ∧ toU32 ((~~~ (0 : Int)) - 1) = 0xFFFFFFFE ∧
      List.zip test_input test_expected
        = [(0, 0), (1, 1), (2, 1), (3, 2), (0xFFFFFFFF, 32), (0xFFFFFFFE, 31)] ∧
      test_input.map popcount = test_expected ∧
      test_expected.all (fun e => decide (e ≤ 32)) = true := by
  refine ⟨test_input_eq, test_expected_eq, rfl, rfl, rfl, rfl, ?_, ?_, ?_⟩
  · rw [test_input_eq, test_expected_eq]
    rfl
  · rw [test_input_eq, test_expected_eq]
    decide
  · rw [test_expected_eq]
    decide

/-- C15: for every unsigned 32-bit value `n` the loop of `count_bits_naive`
ends after a number of passes equal to the bit length of `n` (0 for `n = 0`,
`floor(log2 n) + 1` otherwise), the position of the highest set bit counted
from 1, and that number is at most 32: entered at `count = 0` the loop exits
with the population count and that pass count, and the update `n >>= 1`
applied that many times gives 0 and applied fewer times does not. -/
theorem naive_iterations_bit_length (n : Nat) (hn : n < 2 ^ 32) :
    count_bits_naive_loop n 0 0 = (popcount n, count_bits_naive_iterations n) ∧
      count_bits_naive_iterations n = (if n = 0 then 0 else Nat.log 2 n + 1) ∧
      count_bits_naive_iterations n ≤ 32 ∧
      (n ≠ 0 → n.testBit (count_bits_naive_iterations n - 1) = true) ∧
      (∀ i : Nat, count_bits_naive_iterations n ≤ i → n.testBit i = false) ∧
      shift_right_one^[count_bits_naive_iterations n] n = 0 ∧
      (∀ k : Nat, k < count_bits_naive_iterations n → shift_right_one^[k] n ≠ 0) := by
  have hb := (count_bits_naive_iterations_bounds 32 n hn).1
  have hlt : n < 2 ^ count_bits_naive_iterations n := by
    by_cases h0 : n = 0
    · subst h0
      simp
    · exact (count_bits_naive_iterations_range n h0).2
  refine ⟨Prod.ext (count_bits_naive_eq n hn) rfl, count_bits_naive_iterations_log n, hb,
    ?_, ?_, ?_, ?_⟩
  · intro h0
    obtain ⟨lo, hi⟩ := count_bits_naive_iterations_range n h0
    have hpos : 0 < count_bits_naive_iterations n := by
      rw [count_bits_naive_iterations_succ n h0]
      omega
    apply testBit_top n _ lo
    rw [Nat.sub_add_cancel hpos]
    exact hi
  · intro i hi
    apply Nat.testBit_lt_two_pow
    exact Nat.lt_of_lt_of_le hlt (Nat.pow_le_pow_right (by decide) hi)
  · rw [iterate_shiftRight_one, Nat.shiftRight_eq_div_pow]
    exact Nat.div_eq_of_lt hlt
  · intro k hk
    have h0 : n ≠ 0 := by
      intro h
      subst h
      rw [count_bits_naive_iterations_zero] at hk
      omega
    obtain ⟨lo, _⟩ := count_bits_naive_iterations_range n h0
    rw [iterate_shiftRight_one, Nat.shiftRight_eq_div_pow]
    have hle : 2 ^ k ≤ n :=
      Nat.le_trans (Nat.pow_le_pow_right (by decide) (by omega)) lo
    have hp : 0 < 2 ^ k := Nat.two_pow_pos k
    have := (Nat.div_pos_iff (Nat.ne_of_gt hp)).mpr hle
    omega

theorem naive_iterations_bit_length_witness :
    0x00012345 < 2 ^ 32 ∧
      count_bits_naive_loop 0x00012345 0 0
        = (popcount 0x00012345, count_bits_naive_iterations 0x00012345) ∧
      count_bits_naive_iterations 0x00012345
        = (if 0x00012345 = 0 then 0 else Nat.log 2 0x00012345 + 1) ∧
      count_bits_naive_iterations 0x00012345 ≤ 32 ∧
      (0x00012345 ≠ 0 →
        (0x00012345 : Nat).testBit (count_bits_naive_iterations 0x00012345 - 1) = true) ∧
      (∀ i : Nat, count_bits_naive_iterations 0x00012345 ≤ i →
        (0x00012345 : Nat).testBit i = false) ∧
      shift_right_one^[count_bits_naive_iterations 0x00012345] 0x00012345 = 0 ∧
      (∀ k : Nat, k < count_bits_naive_iterations 0x00012345 →
        shift_right_one^[k] 0x00012345 ≠ 0) :=
  ⟨by decide, naive_iterations_bit_length 0x00012345 (by decide)⟩

/-! ## Lemmas on the bits of `n & (n - 1)` -/

theorem land_pred_testBit (n : Nat) (h0 : n ≠ 0) :
    ∃ j : Nat, n.testBit j = true ∧ (∀ i : Nat, i < j → n.testBit i = false) ∧
      ∀ i : Nat, (n &&& (n - 1)).testBit i = (n.testBit i && decide (i ≠ j)) := by
  induction n using Nat.strong_induction_on with
  | _ n ih =>
    rcases Nat.mod_two_eq_zero_or_one n with h | h
    · have hne : n / 2 ≠ 0 := by omega
      obtain ⟨j, hj1, hj2, hj3⟩ := ih (n / 2) (by omega) hne
      have e1 : (n - 1) / 2 = n / 2 - 1 := by omega
      refine ⟨j + 1, ?_, ?_, ?_⟩
      · rw [Nat.testBit_succ]
        exact hj1
      · intro i hi
        cases i with
        | zero => simp [Nat.testBit_zero, h]
        | succ i =>
          rw [Nat.testBit_succ]
          exact hj2 i (by omega)
      · intro i
        cases i with
        | zero => simp [Nat.testBit_zero, h]
        | succ i =>
          rw [Nat.testBit_succ, Nat.and_div_two, e1, hj3 i, Nat.testBit_succ]
          simp
    · have e1 : (n - 1) / 2 = n / 2 := by omega
      have e2 : (n - 1) % 2 = 0 := by omega
      refine ⟨0, ?_, ?_, ?_⟩
      · simp [Nat.testBit_zero, h]
      · intro i hi
        omega
      · intro i
        cases i with
        | zero => simp [Nat.testBit_zero, h, e2]
        | succ i =>
          rw [Nat.testBit_and, Nat.testBit_succ, Nat.testBit_succ, e1]
          simp

set_option maxRecDepth 100000 in
theorem BitsSetTable256_init_range :
    BitsSetTable256_init.all (fun z => decide (0 ≤ z ∧ z ≤ 8)) = true := by
  decide

set_option maxRecDepth 100000 in
theorem BitsSetTable256_range :
    BitsSetTable256.all (fun e => decide (e ≤ 8)) = true := by
  decide

set_option maxRecDepth 100000 in
theorem BitsSetTable256_unchanged :
    BitsSetTable256.map Int.ofNat = BitsSetTable256_init := by
  decide

theorem count_bits_lookup_reads (o : ByteOrder) (n : Nat) :
    ∃ t0 t1 t2 t3 : Nat,
      BitsSetTable256[byte_at o n 0]? = some t0 ∧ BitsSetTable256[byte_at o n 1]? = some t1 ∧
      BitsSetTable256[byte_at o n 2]? = some t2 ∧ BitsSetTable256[byte_at o n 3]? = some t3 ∧
      t0 ≤ 8 ∧ t1 ≤ 8 ∧ t2 ≤ 8 ∧ t3 ≤ 8 ∧ t0 + t1 + t2 + t3 = popcount n := by
  have hb := popcount_bytes n
  cases o
  · refine ⟨_, _, _, _, table_at_byte _, table_at_byte _, table_at_byte _, table_at_byte _,
      popcount_bits_le 8 _, popcount_bits_le 8 _, popcount_bits_le 8 _,
      popcount_bits_le 8 _, ?_⟩
    simp only [Nat.reduceMul, Nat.shiftRight_zero]
    omega
  · refine ⟨_, _, _, _, table_at_byte _, table_at_byte _, table_at_byte _, table_at_byte _,
      popcount_bits_le 8 _, popcount_bits_le 8 _, popcount_bits_le 8 _,
      popcount_bits_le 8 _, ?_⟩
    simp only [Nat.reduceSub, Nat.reduceMul, Nat.shiftRight_zero]
    omega

/-- C16: for every non-zero unsigned 32-bit value `n`, the step `n & (n - 1)`
of `count_bits_fast` clears the lowest set bit of `n`, at some position
`j < 32`, leaves every other bit as it is, and so has a population count one
less than that of `n`. -/
theorem clear_lowest_clears_lowest_set_bit (n : Nat) (hn : n < 2 ^ 32) (h0 : n ≠ 0) :
    ∃ j : Nat, j < 32 ∧ n.testBit j = true ∧ (∀ i : Nat, i < j → n.testBit i = false) ∧
      (clear_lowest n).testBit j = false ∧
      (∀ i : Nat, i ≠ j → (clear_lowest n).testBit i = n.testBit i) ∧
      popcount (clear_lowest n) + 1 = popcount n := by
  obtain ⟨j, hj1, hj2, hj3⟩ := land_pred_testBit n h0
  have hj : j < 32 := by
    have hge : 2 ^ j ≤ n := Nat.testBit_implies_ge hj1
    exact (Nat.pow_lt_pow_iff_right (by decide : 1 < 2)).mp (Nat.lt_of_le_of_lt hge hn)
  refine ⟨j, hj, hj1, hj2, ?_, ?_, popcount_clear_lowest n hn h0⟩
  · rw [clear_lowest_eq n hn h0, hj3 j]
    simp
  · intro i hi
    rw [clear_lowest_eq n hn h0, hj3 i]
    simp [hi]

theorem clear_lowest_clears_lowest_set_bit_witness :
    0x000000A8 < 2 ^ 32 ∧ 0x000000A8 ≠ 0 ∧
      ∃ j : Nat, j < 32 ∧ (0x000000A8 : Nat).testBit j = true ∧
        (∀ i : Nat, i < j → (0x000000A8 : Nat).testBit i = false) ∧
        (clear_lowest 0x000000A8).testBit j = false ∧
        (∀ i : Nat, i ≠ j → (clear_lowest 0x000000A8).testBit i
          = (0x000000A8 : Nat).testBit i) ∧
        popcount (clear_lowest 0x000000A8) + 1 = popcount 0x000000A8 :=
  ⟨by decide, by decide, clear_lowest_clears_lowest_set_bit 0x000000A8 (by decide) (by decide)⟩

/-- C18: the result of `count_bits_lookup` does not depend on the byte order:
for every value `n` the bytes read on a big-endian host are those read on a
little-endian host in reverse order, the two sums are equal, and on either
host the result is the sum of the table over the four shift-and-mask
extractions `(n >> 8k) & 0xFF` for `k = 0..3`. -/
theorem count_bits_lookup_byte_order_independent (n : Nat) :
    count_bits_lookup ByteOrder.little n = count_bits_lookup ByteOrder.big n ∧
      [byte_at ByteOrder.big n 0, byte_at ByteOrder.big n 1, byte_at ByteOrder.big n 2,
          byte_at ByteOrder.big n 3]
        = [byte_at ByteOrder.little n 3, byte_at ByteOrder.little n 2,
          byte_at ByteOrder.little n 1, byte_at ByteOrder.little n 0] ∧
      ∃ t0 t1 t2 t3 : Nat,
        BitsSetTable256[(n >>> 0) &&& 0xFF]? = some t0 ∧
        BitsSetTable256[(n >>> 8) &&& 0xFF]? = some t1 ∧
        BitsSetTable256[(n >>> 16) &&& 0xFF]? = some t2 ∧
        BitsSetTable256[(n >>> 24) &&& 0xFF]? = some t3 ∧
        ∀ o : ByteOrder, count_bits_lookup o n = some (t0 + t1 + t2 + t3) := by
  refine ⟨?_, rfl, ?_⟩
  · rw [count_bits_lookup_eq, count_bits_lookup_eq]
  · refine ⟨_, _, _, _, table_at_byte _, table_at_byte _, table_at_byte _, table_at_byte _, ?_⟩
    intro o
    rw [count_bits_lookup_eq, popcount_bytes, Nat.shiftRight_zero]

/-- C19: in `count_bits_lookup` every table access is in bounds and nothing
wraps: for every value `n` each of the four byte indices is below the table
length 256, every entry of the table is in `[0,8]` and is unchanged by the
conversion to the 8-bit entry type, and the sum of the four entries read is
at most 32. -/
theorem count_bits_lookup_in_bounds (o : ByteOrder) (n : Nat) :
    BitsSetTable256.length = 256 ∧
      (byte_at o n 0 < BitsSetTable256.length ∧ byte_at o n 1 < BitsSetTable256.length ∧
        byte_at o n 2 < BitsSetTable256.length ∧ byte_at o n 3 < BitsSetTable256.length) ∧
      BitsSetTable256_init.all (fun z => decide (0 ≤ z ∧ z ≤ 8)) = true ∧
      BitsSetTable256.all (fun e => decide (e ≤ 8)) = true ∧
      BitsSetTable256.map Int.ofNat = BitsSetTable256_init ∧
      ∃ t0 t1 t2 t3 : Nat,
        BitsSetTable256[byte_at o n 0]? = some t0 ∧ BitsSetTable256[byte_at o n 1]? = some t1 ∧
        BitsSetTable256[byte_at o n 2]? = some t2 ∧ BitsSetTable256[byte_at o n 3]? = some t3 ∧
        t0 ≤ 8 ∧ t1 ≤ 8 ∧ t2 ≤ 8 ∧ t3 ≤ 8 ∧ t0 + t1 + t2 + t3 ≤ 32 ∧
        count_bits_lookup o n = some (t0 + t1 + t2 + t3) := by
  have hlen := BitsSetTable256_length
  obtain ⟨t0, t1, t2, t3, r0, r1, r2, r3, b0, b1, b2, b3, hsum⟩ := count_bits_lookup_reads o n
  refine ⟨hlen, ?_, BitsSetTable256_init_range, BitsSetTable256_range,
    BitsSetTable256_unchanged, t0, t1, t2, t3, r0, r1, r2, r3, b0, b1, b2, b3, by omega, ?_⟩
  · rw [hlen]
    exact ⟨byte_at_lt o n 0, byte_at_lt o n 1, byte_at_lt o n 2, byte_at_lt o n 3⟩
  · rw [count_bits_lookup_eq, hsum]

/-! ## Lemmas on the timing harness -/

theorem toU32_lt (z : Int) : toU32 z < 2 ^ 32 := by
  unfold toU32
  have h1 : 0 ≤ z % (2 ^ 32 : Int) := Int.emod_nonneg z (by decide)
  have h2 : z % (2 ^ 32 : Int) < 2 ^ 32 := Int.emod_lt_of_pos z (by decide)
  omega

theorem time_bc_fn_loop_eq (h : Host) (function : Nat → Option Nat) (f : Nat → Nat)
    (hf : ∀ a : Nat, a < 2 ^ 32 → function a = some (f a)) (k : Nat) :
    ∀ (i rand_calls : Nat) (counts : List (Nat × Nat)), i + k = ITERATIONS →
      time_bc_fn_loop h function i rand_calls counts =
        some (rand_calls + k,
          ((List.range k).map (fun j => (toU32 (h.rand (rand_calls + j)),
            f (toU32 (h.rand (rand_calls + j)))))).reverse ++ counts) := by
  induction k with
  | zero =>
    intro i r counts hi
    rw [time_bc_fn_loop, if_neg (by omega)]
    rfl
  | succ k ih =>
    intro i r counts hi
    have hv := hf (toU32 (h.rand r)) (toU32_lt _)
    have hI : ITERATIONS = 10000000 := rfl
    have hwrap : (i + 1) % 2 ^ 32 = i + 1 := Nat.mod_eq_of_lt (by omega)
    rw [time_bc_fn_loop, if_pos (by omega), hv]
    simp only [hwrap]
    rw [ih (i + 1) (r + 1) _ (by omega)]
    have hr : r + 1 + k = r + (k + 1) := by omega
    have hfun : (fun j => (toU32 (h.rand (r + 1 + j)), f (toU32 (h.rand (r + 1 + j)))))
        = (fun j => (toU32 (h.rand (r + j)), f (toU32 (h.rand (r + j))))) ∘ Nat.succ := by
      funext j
      have e : r + 1 + j = r + Nat.succ j := by omega
      simp only [Function.comp, e]
    rw [hr, hfun, List.range_succ_eq_map (n := k), List.map_cons, List.map_map,
      List.reverse_cons, List.append_assoc]
    rfl

theorem time_bc_fn_run_eq (h : Host) (function : Nat → Option Nat) (f : Nat → Nat)
    (hf : ∀ a : Nat, a < 2 ^ 32 → function a = some (f a)) (s : Calls)
    (hd : h.CLOCKS_PER_SEC.tdiv 1000 ≠ 0) :
    time_bc_fn_run h function s =
      some ((toU32 (clock_msecs h (s.clock_calls + 1) - clock_msecs h s.clock_calls),
        { clock_calls := s.clock_calls + 2, rand_calls := s.rand_calls + ITERATIONS }),
        spec_bench_calls h f s.rand_calls) := by
  unfold time_bc_fn_run
  rw [if_neg hd,
    time_bc_fn_loop_eq h function f hf ITERATIONS 0 s.rand_calls [] (Nat.zero_add _)]
  simp only [List.append_nil, List.reverse_reverse]
  rfl

theorem time_bc_fn_eq (h : Host) (function : Nat → Option Nat) (f : Nat → Nat)
    (hf : ∀ a : Nat, a < 2 ^ 32 → function a = some (f a)) (s : Calls)
    (hd : h.CLOCKS_PER_SEC.tdiv 1000 ≠ 0) :
    time_bc_fn h function s =
      some (toU32 (clock_msecs h (s.clock_calls + 1) - clock_msecs h s.clock_calls),
        { clock_calls := s.clock_calls + 2, rand_calls := s.rand_calls + ITERATIONS }) := by
  unfold time_bc_fn
  rw [time_bc_fn_run_eq h function f hf s hd]
  rfl

theorem time_bc_fn_run_none (h : Host) (function : Nat → Option Nat) (s : Calls)
    (hd : h.CLOCKS_PER_SEC.tdiv 1000 = 0) : time_bc_fn_run h function s = none := by
  unfold time_bc_fn_run
  rw [if_pos hd]

/-- C17: for every counter function `f`, `time_bc_fn f` returns the elapsed
time in whole milliseconds: with the clock at `c0` ticks before the loop and
at `c1 ≥ c0` ticks after it, the result is
`c1 / (CLOCKS_PER_SEC / 1000) - c0 / (CLOCKS_PER_SEC / 1000)` with truncating
division, reduced to 32 bits (a difference that is not negative when the
ticks are not), and it is the same for any other function `g`: the results of
the calls are dropped. -/
theorem time_bc_fn_elapsed (h : Host) (f g : Nat → Nat) (s : Calls) (c0 c1 : Int)
    (hd : h.CLOCKS_PER_SEC.tdiv 1000 ≠ 0) (h0 : h.clock s.clock_calls = c0)
    (h1 : h.clock (s.clock_calls + 1) = c1) (hle : c0 ≤ c1) :
    time_bc_fn h (fun n => some (f n)) s =
        some (toU32 (c1.tdiv (h.CLOCKS_PER_SEC.tdiv 1000)
            - c0.tdiv (h.CLOCKS_PER_SEC.tdiv 1000)),
          { clock_calls := s.clock_calls + 2, rand_calls := s.rand_calls + ITERATIONS }) ∧
      (0 < h.CLOCKS_PER_SEC.tdiv 1000 → 0 ≤ c0 →
        0 ≤ c1.tdiv (h.CLOCKS_PER_SEC.tdiv 1000) - c0.tdiv (h.CLOCKS_PER_SEC.tdiv 1000)) ∧
      time_bc_fn h (fun n => some (g n)) s = time_bc_fn h (fun n => some (f n)) s := by
  have ef := time_bc_fn_eq h (fun n => some (f n)) f (fun _ _ => rfl) s hd
  have eg := time_bc_fn_eq h (fun n => some (g n)) g (fun _ _ => rfl) s hd
  refine ⟨?_, ?_, ?_⟩
  · rw [ef]
    unfold clock_msecs
    rw [h0, h1]
  · intro hpos hc0
    have hc1 : 0 ≤ c1 := Int.le_trans hc0 hle
    rw [Int.tdiv_eq_ediv hc1 (Int.le_of_lt hpos), Int.tdiv_eq_ediv hc0 (Int.le_of_lt hpos)]
    have := Int.ediv_le_ediv hpos hle
    omega
  · rw [ef, eg]

theorem time_bc_fn_elapsed_witness :
    sample_host.CLOCKS_PER_SEC.tdiv 1000 ≠ 0 ∧ sample_host.clock 0 = 2500999 ∧
      sample_host.clock (0 + 1) = 5001998 ∧ (2500999 : Int) ≤ 5001998 ∧
      time_bc_fn sample_host (fun n => some (count_bits_naive n))
          { clock_calls := 0, rand_calls := 0 } =
        some (toU32 ((5001998 : Int).tdiv (sample_host.CLOCKS_PER_SEC.tdiv 1000)
            - (2500999 : Int).tdiv (sample_host.CLOCKS_PER_SEC.tdiv 1000)),
          { clock_calls := 0 + 2, rand_calls := 0 + ITERATIONS }) ∧
      (0 < sample_host.CLOCKS_PER_SEC.tdiv 1000 → 0 ≤ (2500999 : Int) →
        0 ≤ (5001998 : Int).tdiv (sample_host.CLOCKS_PER_SEC.tdiv 1000)
          - (2500999 : Int).tdiv (sample_host.CLOCKS_PER_SEC.tdiv 1000)) ∧
      time_bc_fn sample_host (fun n => some (dummy n)) { clock_calls := 0, rand_calls := 0 }
        = time_bc_fn sample_host (fun n => some (count_bits_naive n))
          { clock_calls := 0, rand_calls := 0 } :=
  ⟨by decide, by decide, by decide, by decide,
    time_bc_fn_elapsed sample_host count_bits_naive dummy { clock_calls := 0, rand_calls := 0 }
      2500999 5001998 (by decide) (by decide) (by decide) (by decide)⟩

/-! ## Lemmas on the diagnostic lines -/

theorem test_table_lt :
    ∀ c : Nat × Nat, c ∈ List.zip test_input test_expected → c.1 < 2 ^ 32 ∧ c.2 < 2 ^ 32 := by
  rw [test_input_eq, test_expected_eq]
  decide

theorem stderr_lines_spec_events (f : Nat → Nat) (name : String) (cases : List (Nat × Nat)) :
    stderr_lines (spec_events f name cases) =
      (cases.filter (fun c => decide (f c.1 ≠ c.2))).map
        (fun c => diagnostic_line name c.1 c.2 (f c.1)) := by
  induction cases with
  | nil => rfl
  | cons c rest ih =>
    obtain ⟨input, expected⟩ := c
    unfold spec_events
    by_cases h : f input = expected
    · simpa [h, stderr_lines] using ih
    · simpa [h, stderr_lines] using ih

/-- C13: every diagnostic that `test_bc_fn` writes is the line
`<name> failed test: input was <input>, expected result was <expected> bits set, actual result was <actual>!`
ended by a newline, with the display name passed in and the three numbers in
unsigned decimal; one such line is written for each case whose result differs
from the expected value, in table order, and none for a case whose result
equals it. -/
theorem test_bc_fn_diagnostic_lines (f : Nat → Nat) (name : String)
    (hf : ∀ n : Nat, f n < 2 ^ 32) :
    (test_bc_fn (fun n => some (f n)) name).map stderr_lines =
        some (((List.zip test_input test_expected).filter
          (fun c => decide (f c.1 ≠ c.2))).map
            (fun c => name ++ " failed test: input was " ++ toString c.1 ++
              ", expected result was " ++ toString c.2 ++
              " bits set, actual result was " ++ toString (f c.1) ++ "!\n")) ∧
      (∀ m : Nat, toString m = String.mk (Nat.toDigits 10 m)) := by
  refine ⟨?_, fun _ => rfl⟩
  rw [test_bc_fn_run _ f name (fun _ _ => rfl), Option.map_some', stderr_lines_spec_events]
  apply congrArg some
  apply List.map_congr_left
  intro c hc
  obtain ⟨h1, h2⟩ := test_table_lt c (List.mem_of_mem_filter hc)
  unfold diagnostic_line
  rw [Nat.mod_eq_of_lt h1, Nat.mod_eq_of_lt h2, Nat.mod_eq_of_lt (hf c.1)]

theorem test_bc_fn_diagnostic_lines_witness :
    (∀ n : Nat, (fun _ : Nat => 1) n < 2 ^ 32) ∧
      (test_bc_fn (fun n => some ((fun _ : Nat => 1) n)) "Naive method").map stderr_lines =
        some (((List.zip test_input test_expected).filter
          (fun c => decide ((fun _ : Nat => 1) c.1 ≠ c.2))).map
            (fun c => "Naive method" ++ " failed test: input was " ++ toString c.1 ++
              ", expected result was " ++ toString c.2 ++
              " bits set, actual result was " ++ toString ((fun _ : Nat => 1) c.1) ++ "!\n")) ∧
      (∀ m : Nat, toString m = String.mk (Nat.toDigits 10 m)) :=
  ⟨fun _ => (by decide : (1 : Nat) < 2 ^ 32),
    test_bc_fn_diagnostic_lines (fun _ : Nat => 1) "Naive method"
      (fun _ => (by decide : (1 : Nat) < 2 ^ 32))⟩

/-! ## Lemmas on `main` -/

theorem iterations_line :
    "Testing bit counting methods over " ++ toString (ITERATIONS % 2 ^ 32) ++ " iterations...\n"
      = "Testing bit counting methods over 10000000 iterations...\n" := by
  decide

theorem toU32_mod (z : Int) : toU32 z % 2 ^ 32 = toU32 z :=
  Nat.mod_eq_of_lt (toU32_lt z)

theorem spec_events_popcount (name : String) :
    spec_events popcount name (List.zip test_input test_expected)
      = test_input.map Event.call := by
  have hpc : ∀ c, c ∈ List.zip test_input test_expected → popcount c.1 = c.2 := by
    rw [test_input_eq, test_expected_eq]
    decide
  have hmap : (List.zip test_input test_expected).map Prod.fst = test_input := by
    rw [test_input_eq, test_expected_eq]
    rfl
  rw [spec_events_of_agree popcount name _ hpc, hmap]

theorem test_input_lt : ∀ a : Nat, a ∈ test_input → a < 2 ^ 32 := by
  rw [test_input_eq]
  decide

theorem main_with_eq (h : Host) (fns : Counter → Nat → Option Nat) (f : Counter → Nat → Nat)
    (hf : ∀ (c : Counter) (a : Nat), a < 2 ^ 32 → fns c a = some (f c a))
    (hd : h.CLOCKS_PER_SEC.tdiv 1000 ≠ 0) :
    main_with h fns = some (spec_main_steps h f, 0) := by
  have hv : ∀ (c : Counter) (a : Nat), a ∈ test_input → fns c a = some (f c a) :=
    fun c a ha => hf c a (test_input_lt a ha)
  have e2 : 0 + ITERATIONS + ITERATIONS = 2 * ITERATIONS := by omega
  have e3 : 2 * ITERATIONS + ITERATIONS = 3 * ITERATIONS := by omega
  unfold main_with
  rw [test_bc_fn_run _ (f Counter.naive_fn) "Naive method" (hv Counter.naive_fn),
    test_bc_fn_run _ (f Counter.fast_fn) "\"Fast\" method" (hv Counter.fast_fn),
    test_bc_fn_run _ (f Counter.lookup_fn) "Lookup table method" (hv Counter.lookup_fn)]
  simp only [Option.bind_eq_bind, Option.some_bind, Option.pure_def,
    time_bc_fn_run_eq h _ _ (hf _) _ hd, iterations_line, toU32_mod, Nat.reduceAdd]
  simp only [e2, e3, Nat.zero_add]
  rfl

theorem main_with_none (h : Host) (fns : Counter → Nat → Option Nat)
    (hd : h.CLOCKS_PER_SEC.tdiv 1000 = 0) : main_with h fns = none := by
  unfold main_with
  simp only [Option.bind_eq_bind, time_bc_fn_run_none h _ _ hd]
  cases test_bc_fn (fns Counter.naive_fn) "Naive method" <;>
    cases test_bc_fn (fns Counter.fast_fn) "\"Fast\" method" <;>
    cases test_bc_fn (fns Counter.lookup_fn) "Lookup table method" <;> rfl

theorem Counter_call_eq (o : ByteOrder) (c : Counter) (a : Nat) (ha : a < 2 ^ 32) :
    Counter.call o c a = some (spec_counter c a) := by
  cases c
  · rfl
  · exact congrArg some (count_bits_naive_eq a ha)
  · exact congrArg some (count_bits_fast_eq a ha)
  · exact count_bits_lookup_eq o a

/-- C14, as stated, fails on a host with `CLOCKS_PER_SEC = 100`: there
`CLOCKS_PER_SEC / 1000` is 0, the first benchmark divides by zero, and `main`
returns no exit status. -/
theorem main_no_exit_status_on_coarse_clock :
    coarse_clock_host.CLOCKS_PER_SEC.tdiv 1000 = 0 ∧
      main coarse_clock_host ByteOrder.little = none ∧
      ¬ ∃ steps : List MainEvent,
        main coarse_clock_host ByteOrder.little = some (steps, 0) := by
  have hd : coarse_clock_host.CLOCKS_PER_SEC.tdiv 1000 = 0 := by decide
  have hm : main coarse_clock_host ByteOrder.little = none :=
    main_with_none coarse_clock_host _ hd
  refine ⟨hd, hm, ?_⟩
  rintro ⟨steps, hs⟩
  rw [hm] at hs
  exact Option.noConfusion hs

/-- C14, amended: on a host where `CLOCKS_PER_SEC / 1000` is not 0, whatever
the clock and the pseudo-random source do, `main` performs, in this order, the
verification of the naive, clear-lowest-bit and lookup-table counters (with no
diagnostic), the print of the iteration count 10000000, the benchmark and
print of the no-op overhead, and the benchmark and print of the naive,
clear-lowest-bit and lookup-table counters, then returns 0; with any other
functions in place of the four, whatever diagnostics the verification
produces, the steps are those of the same functions in the same order and the
exit status is still 0. -/
theorem main_steps_in_order (h : Host) (o : ByteOrder) (impl : Counter → Nat → Nat)
    (hd : h.CLOCKS_PER_SEC.tdiv 1000 ≠ 0) :
    main h o = some (spec_main_steps h spec_counter, 0) ∧
      (∀ name : String, spec_events popcount name (List.zip test_input test_expected)
        = test_input.map Event.call) ∧
      main_with h (fun c n => some (impl c n)) = some (spec_main_steps h impl, 0) :=
  ⟨main_with_eq h (Counter.call o) spec_counter (Counter_call_eq o) hd,
    spec_events_popcount,
    main_with_eq h _ impl (fun _ _ _ => rfl) hd⟩

theorem main_steps_in_order_witness :
    sample_host.CLOCKS_PER_SEC.tdiv 1000 ≠ 0 ∧
      main sample_host ByteOrder.little = some (spec_main_steps sample_host spec_counter, 0) ∧
      (∀ name : String, spec_events popcount name (List.zip test_input test_expected)
        = test_input.map Event.call) ∧
      main_with sample_host (fun c n => some ((fun c n => Counter.casesOn c 0 1 2 3 + n) c n))
        = some (spec_main_steps sample_host (fun c n => Counter.casesOn c 0 1 2 3 + n), 0) :=
  ⟨by decide,
    main_steps_in_order sample_host ByteOrder.little
      (fun c n => Counter.casesOn c 0 1 2 3 + n) (by decide)⟩

end CountBits
